import Mathlib

/-!
# EmotionalOS sovereign data ledger — verification of the specification

Shallow embedding of the ledger core of the repository
(`src/shared/schema.ts`, class `PrismaStorage`, which is the storage
implementation the server exports as `storage`), together with proofs
settling the frozen claims about the natural-language specification.

Modelling conventions:

* The SHA-256 digest `generateHash(JSON.stringify(vaultData))` over the
  structure `{userId, kind, payload, prevHash, chainIndex}` is modelled
  symbolically as a free term (`Digest`): two digests are equal exactly
  when the hashed structures are equal.  This is the standard
  collision-free idealization of a cryptographic hash; the spec itself
  only demands tamper evidence up to "computationally infeasible"
  collisions.  The sentinel `null` previous hash is the `Digest.first`
  constructor shape (JSON serializes `null` and a hex string
  differently, so the two shapes are distinguishable, as in the source).
* `JSON.parse(JSON.stringify(x)) = x` property of the payload round trip
  through the `payload` text column is captured by storing the payload
  in parsed form (`Payload`); the source only ever writes the three
  payload shapes below.
* Database-generated fresh ids (`gen_random_uuid()`) are modelled as an
  injective id supply `genId` drawn from a counter in the store; the
  only properties used are freshness and non-emptiness.
* All operations run against the single default user partition
  (`PrismaStorage.getUserId` resolves the one local user); the partition
  key is the constant `userId0`.
-/

namespace EmotionalOS

/-- The three JSON payload shapes ever written to the `payload` column of
`VaultEntry`: `{id, valence, arousal}` by `createEmotionalState`,
`{id, severity}` by `createNssiEvent`, `{referenceId}` by
`createVaultEntry`. -/
inductive Payload where
  | statePayload (id : String) (valence : Int) (arousal : Int)
  | nssiPayload (id : String) (severity : Int)
  | refPayload (referenceId : String)
deriving DecidableEq, Repr

/-- Symbolic model of
`generateHash(JSON.stringify({userId, kind, payload, prevHash, chainIndex}))`
(sha-256 hex, `PrismaStorage.generateHash`), idealized as collision-free:
`first` is the shape with `prevHash = null`, `chained` the shape with a
previous digest. -/
inductive Digest where
  | first (userId : String) (kind : String) (payload : Payload) (chainIndex : Int)
  | chained (userId : String) (kind : String) (payload : Payload) (prevHash : Digest) (chainIndex : Int)
deriving DecidableEq, Repr

/-- Hash of the `vaultData` structure, dispatching on the `prevHash ?? null`
field exactly as the serialized JSON distinguishes `null` from a hex
string. -/
def Digest.mk (userId : String) (kind : String) (payload : Payload) (prevHash : Option Digest) (chainIndex : Int) : Digest :=
  match prevHash with
  | none => Digest.first userId kind payload chainIndex
  | some d => Digest.chained userId kind payload d chainIndex

/-- The row stored in the `VaultEntry` table (fields the ledger core reads:
`id`, `kind`, `payload`, `sha256`, `prevHash`, `chainIndex`). -/
structure PVaultEntry where
  id : String
  kind : String
  payload : Payload
  sha256 : Digest
  prevHash : Option Digest
  chainIndex : Int
deriving DecidableEq, Repr

/-- An `EmotionalState` row (the fields the ledger core and the enrichment
projector read). -/
structure PState where
  id : String
  intensity : Int
  valence : Int
  arousal : Int
deriving DecidableEq, Repr

/-- An `NssiEvent` row (the fields the ledger core and the enrichment
projector read). -/
structure PNssi where
  id : String
  severity : Int
  triggerType : Option String
deriving DecidableEq, Repr

/-- The default user partition key resolved by `PrismaStorage.getUserId`. -/
def userId0 : String := "user-local"

/-- The per-partition database state: the three tables the ledger core
touches plus the fresh-id counter modelling `gen_random_uuid()`. -/
structure Store where
  states : List PState
  events : List PNssi
  vault : List PVaultEntry
  nextId : Nat
deriving DecidableEq, Repr

/-- Injective fresh-id supply modelling `gen_random_uuid()`; ids are never
empty. -/
def genId (n : Nat) : String := String.mk ('i' :: 'd' :: List.replicate n 'x')

/-- The empty partition (fresh database for the default user). -/
def initialStore : Store := { states := [], events := [], vault := [], nextId := 0 }

/-- `db.vaultEntry.findFirst({where: {userId}, orderBy: {chainIndex: "desc"}})`:
the entry with the greatest `chainIndex` (unique by the
`VaultEntry_userId_chainIndex_key` index). -/
def lastVaultEntry : List PVaultEntry → Option PVaultEntry
  | [] => none
  | e :: es =>
    match lastVaultEntry es with
    | none => some e
    | some m => if e.chainIndex > m.chainIndex then some e else some m

/-- `PrismaStorage.createEmotionalState`: persist the state row, read the
chain tail, hash the `vaultData` structure and append the derived vault
entry. -/
def createEmotionalState (intensity valence arousal : Int) (s : Store) : Store :=
  let id := genId s.nextId
  let st : PState := { id := id, intensity := intensity, valence := valence, arousal := arousal }
  let lastVault := lastVaultEntry s.vault
  let chainIndex : Int := (match lastVault with | none => -1 | some m => m.chainIndex) + 1
  let prevHash : Option Digest := lastVault.map (·.sha256)
  let payload := Payload.statePayload id valence arousal
  let hash := Digest.mk userId0 "state" payload prevHash chainIndex
  { states := s.states ++ [st]
    events := s.events
    vault := s.vault ++ [{ id := genId (s.nextId + 1), kind := "state", payload := payload,
                           sha256 := hash, prevHash := prevHash, chainIndex := chainIndex }]
    nextId := s.nextId + 2 }

/-- `PrismaStorage.createNssiEvent`: persist the event row, read the chain
tail, hash the `vaultData` structure and append the derived vault entry. -/
def createNssiEvent (severity : Int) (triggerType : Option String) (s : Store) : Store :=
  let id := genId s.nextId
  let ev : PNssi := { id := id, severity := severity, triggerType := triggerType }
  let lastVault := lastVaultEntry s.vault
  let chainIndex : Int := (match lastVault with | none => -1 | some m => m.chainIndex) + 1
  let prevHash : Option Digest := lastVault.map (·.sha256)
  let payload := Payload.nssiPayload id severity
  let hash := Digest.mk userId0 "nssi" payload prevHash chainIndex
  { states := s.states
    events := s.events ++ [ev]
    vault := s.vault ++ [{ id := genId (s.nextId + 1), kind := "nssi", payload := payload,
                           sha256 := hash, prevHash := prevHash, chainIndex := chainIndex }]
    nextId := s.nextId + 2 }

/-- `PrismaStorage.createVaultEntry`: read the chain tail for `chainIndex`
and `prevHash`, store the caller-supplied `dataHash` as `sha256` and the
payload `{referenceId}`; no domain record is written and no validation is
performed. -/
def createVaultEntry (entryType referenceId : String) (dataHash : Digest) (s : Store) : Store :=
  let lastVault := lastVaultEntry s.vault
  let chainIndex : Int := (match lastVault with | none => -1 | some m => m.chainIndex) + 1
  let prevHash : Option Digest := lastVault.map (·.sha256)
  { states := s.states
    events := s.events
    vault := s.vault ++ [{ id := genId s.nextId, kind := entryType,
                           payload := Payload.refPayload referenceId,
                           sha256 := dataHash, prevHash := prevHash, chainIndex := chainIndex }]
    nextId := s.nextId + 1 }

/-- The append operations of the ledger (the three code paths that insert a
`VaultEntry` row). -/
inductive AppendOp where
  | newState (intensity valence arousal : Int)
  | newNssi (severity : Int) (triggerType : Option String)
  | newVault (entryType referenceId : String) (dataHash : Digest)
deriving DecidableEq, Repr

/-- Whether an append op is one of the two record-creation paths (state or
risk-event creation) that compute the stored digest themselves. -/
def AppendOp.isRecord : AppendOp → Bool
  | .newState _ _ _ => true
  | .newNssi _ _ => true
  | .newVault _ _ _ => false

def applyOp (s : Store) : AppendOp → Store
  | .newState i v a => createEmotionalState i v a s
  | .newNssi sev trig => createNssiEvent sev trig s
  | .newVault t r d => createVaultEntry t r d s

def runOps (s : Store) (ops : List AppendOp) : Store := ops.foldl applyOp s

/-- Insertion of an entry into a list ascending by `chainIndex`
(helper for the `orderBy: {chainIndex: "asc"}` reads). -/
def insertByChain (e : PVaultEntry) : List PVaultEntry → List PVaultEntry
  | [] => [e]
  | a :: as => if e.chainIndex ≤ a.chainIndex then e :: a :: as else a :: insertByChain e as

/-- `orderBy: {chainIndex: "asc"}`: the stored entries sorted ascending by
`chainIndex`. -/
def sortByChain : List PVaultEntry → List PVaultEntry
  | [] => []
  | e :: es => insertByChain e (sortByChain es)

/-- The verification loop of `PrismaStorage.getVaultStatus`: walk the
entries, recompute each digest from the stored fields and the running
`prevHash` (initially `null`), stop with `false` at the first entry whose
stored `sha256` differs from the recomputation, else advance the running
hash to the stored `sha256`. -/
def chainCheck : List PVaultEntry → Option Digest → Bool
  | [], _ => true
  | e :: es, prev =>
    if Digest.mk userId0 e.kind e.payload prev e.chainIndex = e.sha256 then
      chainCheck es (some e.sha256)
    else
      false

/-- The result record of `getVaultStatus` (`lastHash = none` models the
empty-string sentinel returned for an empty chain). -/
structure VaultStatus where
  totalEntries : Nat
  encryptedEntries : Nat
  lastHash : Option Digest
  chainIntegrity : Bool
deriving DecidableEq, Repr

/-- `PrismaStorage.getVaultStatus`: fetch the chain ascending by
`chainIndex`, recompute the hash chain, and report totals, the tail hash
and the integrity flag (a plain boolean; the source returns no index of
breakage). -/
def getVaultStatus (s : Store) : VaultStatus :=
  let entries := sortByChain s.vault
  { totalEntries := entries.length
    encryptedEntries := entries.length
    lastHash := entries.getLast?.map (·.sha256)
    chainIntegrity := chainCheck entries none }

/-- `PrismaStorage.deleteAllData`: delete every row of the partition. -/
def deleteAllData (s : Store) : Store :=
  { states := [], events := [], vault := [], nextId := s.nextId }

/-- The display content attached to an enriched vault entry: the
display-safe fields of the referenced record (`{intensity, valence,
arousal, note: null}` for states — the constant `null` note is omitted —
and `{severity, triggerType}` for risk events). -/
inductive ContentSummary where
  | forState (intensity valence arousal : Int)
  | forNssi (severity : Int) (triggerType : Option String)
deriving DecidableEq, Repr

/-- An element of the `getVaultEntries` result (the `EnrichedVaultEntry`
shape: stored fields plus the optional content summary; `referenceId` is
`payload.id || ""`). -/
structure EnrichedEntry where
  id : String
  dataHash : Digest
  entryType : String
  referenceId : String
  previousHash : Option Digest
  contentSummary : Option ContentSummary
deriving DecidableEq, Repr

/-- The `.id` field of a parsed payload (`undefined` for the
`{referenceId}` shape). -/
def payloadIdField : Payload → Option String
  | .statePayload i _ _ => some i
  | .nssiPayload i _ => some i
  | .refPayload _ => none

/-- The enrichment of one entry inside `PrismaStorage.getVaultEntries`:
guard `entry.kind === "state" && payload.id` (JavaScript truthiness, so an
empty-string id fails the guard), look the id up in the matching record
table, and attach the summary when the record is found, `null` otherwise. -/
def enrichEntry (s : Store) (e : PVaultEntry) : EnrichedEntry :=
  let pid := payloadIdField e.payload
  let contentSummary : Option ContentSummary :=
    match pid with
    | none => none
    | some i =>
      if i = "" then none
      else if e.kind = "state" then
        (s.states.find? (fun st => st.id = i)).map
          (fun st => ContentSummary.forState st.intensity st.valence st.arousal)
      else if e.kind = "nssi" then
        (s.events.find? (fun ev => ev.id = i)).map
          (fun ev => ContentSummary.forNssi ev.severity ev.triggerType)
      else none
  { id := e.id
    dataHash := e.sha256
    entryType := e.kind
    referenceId := pid.getD ""
    previousHash := e.prevHash
    contentSummary := contentSummary }

/-- `PrismaStorage.getVaultEntries`: read the chain ascending by
`chainIndex` and enrich every entry against the record store. -/
def getVaultEntries (s : Store) : List EnrichedEntry :=
  (sortByChain s.vault).map (enrichEntry s)

/-- Retention-policy deletion of domain records out of band: keep only the
records whose id satisfies the keep predicates; the ledger itself
persists untouched. -/
def pruneRecords (keepState keepEvent : String → Bool) (s : Store) : Store :=
  { states := s.states.filter (fun st => keepState st.id)
    events := s.events.filter (fun ev => keepEvent ev.id)
    vault := s.vault
    nextId := s.nextId }

/-!
## Export serializer (`/api/vault/export` handler in `registerRoutes`)

The handler builds one `data` document from the storage getters and either
sends its JSON serialization (`format = "json"`) or the base64 transport
encoding of the same serialization (`format = "encrypted"`,
`Buffer.from(JSON.stringify(data)).toString("base64")`).  The document's
byte serialization is abstracted as an arbitrary byte list (the UTF-8
bytes of `JSON.stringify(data)`); the base64 encoding is implemented
concretely below.
-/

/-- The export document assembled by the `/api/vault/export` handler from
the ledger-relevant getters (session logs, analytics patterns and the
`exportedAt` timestamp are outside the ledger core and not modelled).
`getEmotionalStates`/`getNssiEvents` return records newest-first. -/
structure ExportDoc where
  emotionalStates : List PState
  nssiEvents : List PNssi
  vaultEntries : List EnrichedEntry
deriving DecidableEq, Repr

def exportDocument (s : Store) : ExportDoc :=
  { emotionalStates := s.states.reverse
    nssiEvents := s.events.reverse
    vaultEntries := getVaultEntries s }

/-- The base64 alphabet. -/
def b64chars : List Char :=
  [ 'A', 'B', 'C', 'D', 'E', 'F', 'G', 'H', 'I', 'J', 'K', 'L', 'M',
    'N', 'O', 'P', 'Q', 'R', 'S', 'T', 'U', 'V', 'W', 'X', 'Y', 'Z',
    'a', 'b', 'c', 'd', 'e', 'f', 'g', 'h', 'i', 'j', 'k', 'l', 'm',
    'n', 'o', 'p', 'q', 'r', 's', 't', 'u', 'v', 'w', 'x', 'y', 'z',
    '0', '1', '2', '3', '4', '5', '6', '7', '8', '9', '+', '/' ]

/-- Character for a 6-bit group. -/
def enc6 (n : Nat) : Char := b64chars.getD n 'A'

/-- 6-bit group of an alphabet character. -/
def dec6 (c : Char) : Nat := b64chars.indexOf c

/-- Base64 encoding of a byte sequence (`Buffer.toString("base64")`),
with `=` padding. -/
def b64Encode : List Nat → List Char
  | [] => []
  | [a] => [enc6 (a / 4), enc6 (a % 4 * 16), '=', '=']
  | [a, b] => [enc6 (a / 4), enc6 (a % 4 * 16 + b / 16), enc6 (b % 16 * 4), '=']
  | a :: b :: c :: rest =>
    enc6 (a / 4) :: enc6 (a % 4 * 16 + b / 16) :: enc6 (b % 16 * 4 + c / 64) :: enc6 (c % 64) ::
      b64Encode rest

/-- Base64 decoding of an encoded character sequence (the inverse transport
decoding; `Buffer.from(str, "base64")`). -/
def b64Decode : List Char → List Nat
  | c1 :: c2 :: c3 :: c4 :: rest =>
    if c3 = '=' then [dec6 c1 * 4 + dec6 c2 / 16]
    else if c4 = '=' then
      [dec6 c1 * 4 + dec6 c2 / 16, dec6 c2 % 16 * 16 + dec6 c3 / 4]
    else
      (dec6 c1 * 4 + dec6 c2 / 16) :: (dec6 c2 % 16 * 16 + dec6 c3 / 4) ::
        (dec6 c3 % 4 * 64 + dec6 c4) :: b64Decode rest
  | _ => []

/-!
## The string-level hasher (`generateHash`)

`PrismaStorage.generateHash` and `MemStorage.generateHash` are the same
two lines: `createHash("sha256").update(data).digest("hex")` over an
already-serialized string.  The digest is modelled as a free term over the
input string (collision-free idealization), and the caller-side
`JSON.stringify` of a flat object with numeric fields is modelled
concretely so that field insertion order is visible. -/

/-- Symbolic SHA-256 over a string: collision-free idealization of the hex
digest. -/
inductive Sha256 where
  | hashOf (input : String) : Sha256
deriving DecidableEq, Repr

/-- `generateHash(data)`: hash the given string verbatim — no parsing, no
key reordering, no normalization happens inside the hasher. -/
def generateHash (data : String) : Sha256 := Sha256.hashOf data

/-- Caller-side `JSON.stringify` of a flat object with number-valued
fields, in the caller's field insertion order. -/
def stringifyObj (fields : List (String × Int)) : String :=
  "\x7b" ++ String.intercalate ","
    (fields.map (fun f => "\x22" ++ f.1 ++ "\x22:" ++ toString f.2)) ++ "\x7d"

/-!
## Chain invariants

`Linked n prev es` says the entries of `es`, in list order, carry the
contiguous chain indexes `n, n+1, …` and each stores as `prevHash` the
`sha256` of its predecessor (`prev` for the first). -/

def Linked : Int → Option Digest → List PVaultEntry → Prop
  | _, _, [] => True
  | n, prev, e :: es => e.chainIndex = n ∧ e.prevHash = prev ∧ Linked (n + 1) (some e.sha256) es

/-- Every entry stores as `sha256` exactly the hash of its own
`vaultData` structure. -/
def HashOk (es : List PVaultEntry) : Prop :=
  ∀ e ∈ es, e.sha256 = Digest.mk userId0 e.kind e.payload e.prevHash e.chainIndex

/-- The digest of the tail of `es`, or `prev` if `es` is empty. -/
def tailSha (prev : Option Digest) (es : List PVaultEntry) : Option Digest :=
  match es.getLast? with
  | none => prev
  | some m => some m.sha256

theorem list_set_self {α : Type} (l : List α) (k : Nat) (h : k < l.length) :
    l.set k (l.get ⟨k, h⟩) = l := by
  induction l generalizing k with
  | nil => simp at h
  | cons a t ih =>
    cases k with
    | zero => simp
    | succ k =>
      simp only [List.get_eq_getElem, List.getElem_cons_succ, List.set_cons_succ]
      have := ih k (by simpa using h)
      simp only [List.get_eq_getElem] at this
      rw [this]

theorem Digest.mk_inj {u u' k k' : String} {p p' : Payload} {pr pr' : Option Digest}
    {ci ci' : Int} (h : Digest.mk u k p pr ci = Digest.mk u' k' p' pr' ci') :
    u = u' ∧ k = k' ∧ p = p' ∧ pr = pr' ∧ ci = ci' := by
  cases pr <;> cases pr' <;> simp_all [Digest.mk]

theorem linked_getLast_ci :
    ∀ (es : List PVaultEntry) (n : Int) (prev : Option Digest) (m : PVaultEntry),
      Linked n prev es → es.getLast? = some m → m.chainIndex + 1 = n + es.length
  | [], _, _, _, _, hm => by simp at hm
  | [e], n, prev, m, hl, hm => by
    have hme : m = e := by
      simp only [List.getLast?_singleton, Option.some.injEq] at hm
      exact hm.symm
    subst hme
    have h1 : m.chainIndex = n := hl.1
    simp only [List.length_cons, List.length_nil]
    omega
  | e :: e' :: es, n, prev, m, hl, hm => by
    rw [List.getLast?_cons_cons] at hm
    have := linked_getLast_ci (e' :: es) (n + 1) (some e.sha256) m hl.2.2 hm
    simp only [List.length_cons] at this ⊢
    omega

theorem linked_lastVaultEntry :
    ∀ (es : List PVaultEntry) (n : Int) (prev : Option Digest),
      Linked n prev es → lastVaultEntry es = es.getLast?
  | [], _, _, _ => rfl
  | e :: es, n, prev, hl => by
    have ih := linked_lastVaultEntry es (n + 1) (some e.sha256) hl.2.2
    rcases hm : es.getLast? with _ | m
    · have hnil : es = [] := List.getLast?_eq_none_iff.mp hm
      subst hnil
      simp [lastVaultEntry]
    · have hne : es ≠ [] := by intro hh; rw [hh] at hm; simp at hm
      have hci : m.chainIndex + 1 = (n + 1) + es.length :=
        linked_getLast_ci es (n + 1) (some e.sha256) m hl.2.2 hm
      have hlen : 1 ≤ es.length := by
        cases es with
        | nil => exact absurd rfl hne
        | cons b t => simp
      have hgt : ¬ e.chainIndex > m.chainIndex := by
        have he : e.chainIndex = n := hl.1
        omega
      have hglast : (e :: es).getLast? = some m := by
        cases es with
        | nil => exact absurd rfl hne
        | cons b t => rw [List.getLast?_cons_cons]; exact hm
      rw [hglast]
      simp only [lastVaultEntry, ih, hm]
      rw [if_neg hgt]

theorem linked_append :
    ∀ (es : List PVaultEntry) (n : Int) (prev : Option Digest) (e : PVaultEntry),
      Linked n prev es → e.chainIndex = n + es.length → e.prevHash = tailSha prev es →
      Linked n prev (es ++ [e])
  | [], n, prev, e, _, hci, hprev => by
    refine ⟨by simpa using hci, by simpa [tailSha] using hprev, trivial⟩
  | a :: es, n, prev, e, hl, hci, hprev => by
    refine ⟨hl.1, hl.2.1, ?_⟩
    apply linked_append es (n + 1) (some a.sha256) e hl.2.2
    · simp only [List.length_cons] at hci; push_cast at hci ⊢; omega
    · rw [hprev]
      cases hes : es with
      | nil => simp [tailSha, hes]
      | cons b t =>
        simp only [tailSha, List.getLast?_cons_cons]
        rcases hbt : (b :: t).getLast? with _ | m
        · exact absurd (List.getLast?_eq_none_iff.mp hbt) (by simp)
        · rfl

theorem linked_applyOp (s : Store) (op : AppendOp) (h : Linked 0 none s.vault) :
    Linked 0 none (applyOp s op).vault := by
  have hlast : lastVaultEntry s.vault = s.vault.getLast? := linked_lastVaultEntry _ 0 none h
  have hstep : ∀ e : PVaultEntry,
      e.chainIndex = (match lastVaultEntry s.vault with | none => (-1 : Int) | some m => m.chainIndex) + 1 →
      e.prevHash = (lastVaultEntry s.vault).map (·.sha256) →
      Linked 0 none (s.vault ++ [e]) := by
    intro e hci hprev
    apply linked_append s.vault 0 none e h
    · rcases hm : s.vault.getLast? with _ | m
      · have hnil : s.vault = [] := List.getLast?_eq_none_iff.mp hm
        rw [hlast, hm] at hci
        have hci' : e.chainIndex = -1 + 1 := hci
        simp [hnil, hci']
      · have hlg := linked_getLast_ci s.vault 0 none m h hm
        rw [hlast, hm] at hci
        have hci' : e.chainIndex = m.chainIndex + 1 := hci
        omega
    · rw [hprev, hlast]
      rcases hm : s.vault.getLast? with _ | m <;> simp [tailSha, hm]
  cases op with
  | newState i v a => exact hstep _ rfl rfl
  | newNssi sev trig => exact hstep _ rfl rfl
  | newVault t r d => exact hstep _ rfl rfl

theorem linked_runOps (ops : List AppendOp) :
    ∀ (s : Store), Linked 0 none s.vault → Linked 0 none (runOps s ops).vault := by
  induction ops with
  | nil => intro s h; exact h
  | cons op rest ih =>
    intro s h
    exact ih (applyOp s op) (linked_applyOp s op h)

theorem linked_run (ops : List AppendOp) : Linked 0 none (runOps initialStore ops).vault :=
  linked_runOps ops initialStore trivial

theorem hashOk_applyOp (s : Store) (op : AppendOp) (hrec : op.isRecord = true)
    (h : HashOk s.vault) : HashOk (applyOp s op).vault := by
  cases op with
  | newState i v a =>
    intro e he
    rcases List.mem_append.mp he with h1 | h2
    · exact h e h1
    · simp only [List.mem_singleton] at h2; subst h2; rfl
  | newNssi sev trig =>
    intro e he
    rcases List.mem_append.mp he with h1 | h2
    · exact h e h1
    · simp only [List.mem_singleton] at h2; subst h2; rfl
  | newVault t r d => simp [AppendOp.isRecord] at hrec

theorem hashOk_runOps (ops : List AppendOp) :
    ∀ (s : Store), (∀ op ∈ ops, op.isRecord = true) → HashOk s.vault →
      HashOk (runOps s ops).vault := by
  induction ops with
  | nil => intro s _ h; exact h
  | cons op rest ih =>
    intro s hall h
    exact ih (applyOp s op) (fun o ho => hall o (List.mem_cons_of_mem _ ho))
      (hashOk_applyOp s op (hall op (List.mem_cons_self _ _)) h)

theorem hashOk_run (ops : List AppendOp) (hall : ∀ op ∈ ops, op.isRecord = true) :
    HashOk (runOps initialStore ops).vault :=
  hashOk_runOps ops initialStore hall (fun e he => by simp [initialStore] at he)

theorem chainCheck_of_linked_hashOk :
    ∀ (es : List PVaultEntry) (n : Int) (prev : Option Digest),
      Linked n prev es → HashOk es → chainCheck es prev = true
  | [], _, _, _, _ => rfl
  | e :: es, n, prev, hl, hh => by
    have he : e.sha256 = Digest.mk userId0 e.kind e.payload e.prevHash e.chainIndex :=
      hh e (List.mem_cons_self _ _)
    have hprev : e.prevHash = prev := hl.2.1
    simp only [chainCheck, ← hprev, ← he, if_pos rfl]
    exact chainCheck_of_linked_hashOk es (n + 1) (some e.sha256) hl.2.2
      (fun x hx => hh x (List.mem_cons_of_mem _ hx))

theorem linked_chain' :
    ∀ (es : List PVaultEntry) (n : Int) (prev : Option Digest), Linked n prev es →
      List.Chain' (fun a b => a.chainIndex < b.chainIndex) es
  | [], _, _, _ => List.chain'_nil
  | [e], _, _, _ => by simp
  | e :: e' :: es, n, prev, hl => by
    rw [List.chain'_cons]
    constructor
    · have h1 : e.chainIndex = n := hl.1
      have h2 : e'.chainIndex = n + 1 := hl.2.2.1
      omega
    · exact linked_chain' (e' :: es) (n + 1) (some e.sha256) hl.2.2

theorem sortByChain_eq_self :
    ∀ (es : List PVaultEntry),
      List.Chain' (fun a b => a.chainIndex < b.chainIndex) es → sortByChain es = es
  | [], _ => rfl
  | e :: es, h => by
    have ih := sortByChain_eq_self es h.tail
    simp only [sortByChain, ih]
    cases es with
    | nil => rfl
    | cons a t =>
      have hlt : e.chainIndex < a.chainIndex := (List.chain'_cons.mp h).1
      simp [insertByChain, le_of_lt hlt]

theorem chain'_set (es : List PVaultEntry) (k : Nat) (hk : k < es.length)
    (e' : PVaultEntry) (hci : e'.chainIndex = es[k].chainIndex)
    (h : List.Chain' (fun a b => a.chainIndex < b.chainIndex) es) :
    List.Chain' (fun a b => a.chainIndex < b.chainIndex) (es.set k e') := by
  have hk' : k < (es.map (fun e : PVaultEntry => e.chainIndex)).length := by simpa using hk
  have hmap : (es.set k e').map (fun e : PVaultEntry => e.chainIndex) = es.map (fun e : PVaultEntry => e.chainIndex) := by
    rw [List.map_set, hci]
    have hget : (es.map (fun e : PVaultEntry => e.chainIndex)).get ⟨k, hk'⟩ = es[k].chainIndex := by
      simp
    rw [← hget, list_set_self]
  have h1 : List.Chain' (fun a b : Int => a < b) (es.map (fun e : PVaultEntry => e.chainIndex)) :=
    (List.chain'_map (fun e : PVaultEntry => e.chainIndex)).mpr h
  have h2 : List.Chain' (fun a b : Int => a < b) ((es.set k e').map (fun e : PVaultEntry => e.chainIndex)) :=
    hmap ▸ h1
  exact (List.chain'_map (fun e : PVaultEntry => e.chainIndex)).mp h2

theorem linked_get_ci :
    ∀ (es : List PVaultEntry) (n : Int) (prev : Option Digest) (i : Nat) (hi : i < es.length),
      Linked n prev es → (es.get ⟨i, hi⟩).chainIndex = n + i
  | e :: es, n, prev, 0, _, hl => by simpa using hl.1
  | e :: es, n, prev, i + 1, hi, hl => by
    have := linked_get_ci es (n + 1) (some e.sha256) i (by simpa using hi) hl.2.2
    simp only [List.get_eq_getElem, List.getElem_cons_succ] at this ⊢
    push_cast at this ⊢
    omega

theorem linked_get_prev_zero (es : List PVaultEntry) (n : Int) (prev : Option Digest)
    (h0 : 0 < es.length) (hl : Linked n prev es) : (es.get ⟨0, h0⟩).prevHash = prev := by
  cases es with
  | nil => simp at h0
  | cons e t => exact hl.2.1

theorem linked_get_prev_succ :
    ∀ (es : List PVaultEntry) (n : Int) (prev : Option Digest) (i : Nat) (hi : i + 1 < es.length),
      Linked n prev es →
      (es.get ⟨i + 1, hi⟩).prevHash =
        some ((es.get ⟨i, Nat.lt_of_succ_lt hi⟩).sha256)
  | e :: es, n, prev, 0, hi, hl => by
    have h0 : 0 < es.length := by simpa using hi
    have := linked_get_prev_zero es (n + 1) (some e.sha256) h0 hl.2.2
    simpa using this
  | e :: es, n, prev, i + 1, hi, hl => by
    have := linked_get_prev_succ es (n + 1) (some e.sha256) i (by simpa using hi) hl.2.2
    simpa using this

theorem runOps_vault_length (ops : List AppendOp) :
    ∀ (s : Store), (runOps s ops).vault.length = s.vault.length + ops.length := by
  induction ops with
  | nil => intro s; simp [runOps]
  | cons op rest ih =>
    intro s
    have hstep : (applyOp s op).vault.length = s.vault.length + 1 := by
      cases op <;> simp [applyOp, createEmotionalState, createNssiEvent, createVaultEntry]
    have := ih (applyOp s op)
    simp only [runOps] at this ⊢
    rw [List.foldl_cons, this, hstep, List.length_cons]
    omega

/-- Replacing the entry at position `k` of a verifying chain by an entry
that differs in exactly one of `kind`, `payload`, `sha256` (same
`chainIndex`) makes the verification loop fail. -/
theorem chainCheck_set_tamper :
    ∀ (es : List PVaultEntry) (prev : Option Digest) (k : Nat) (hk : k < es.length)
      (e' : PVaultEntry),
      chainCheck es prev = true →
      e'.chainIndex = (es.get ⟨k, hk⟩).chainIndex →
      ((e'.kind ≠ (es.get ⟨k, hk⟩).kind ∧ e'.payload = (es.get ⟨k, hk⟩).payload ∧
          e'.sha256 = (es.get ⟨k, hk⟩).sha256) ∨
       (e'.payload ≠ (es.get ⟨k, hk⟩).payload ∧ e'.kind = (es.get ⟨k, hk⟩).kind ∧
          e'.sha256 = (es.get ⟨k, hk⟩).sha256) ∨
       (e'.sha256 ≠ (es.get ⟨k, hk⟩).sha256 ∧ e'.kind = (es.get ⟨k, hk⟩).kind ∧
          e'.payload = (es.get ⟨k, hk⟩).payload)) →
      chainCheck (es.set k e') prev = false
  | [], _, k, hk, _, _, _, _ => by simp at hk
  | e :: es, prev, 0, hk, e', hchk, hci, hdiff => by
    have hhead : Digest.mk userId0 e.kind e.payload prev e.chainIndex = e.sha256 := by
      by_contra hne
      simp only [chainCheck, if_neg hne] at hchk
      exact Bool.false_ne_true hchk
    simp only [List.get_eq_getElem, List.getElem_cons_zero] at hci hdiff
    have hcond : ¬ Digest.mk userId0 e'.kind e'.payload prev e'.chainIndex = e'.sha256 := by
      intro heq
      rcases hdiff with ⟨hkind, hpay, hsha⟩ | ⟨hpay, hkind, hsha⟩ | ⟨hsha, hkind, hpay⟩
      · rw [hsha, ← hhead] at heq
        exact hkind (Digest.mk_inj heq).2.1
      · rw [hsha, ← hhead] at heq
        exact hpay (Digest.mk_inj heq).2.2.1
      · rw [hkind, hpay, hci, hhead] at heq
        exact hsha heq.symm
    simp only [List.set_cons_zero, chainCheck, if_neg hcond]
  | e :: es, prev, k + 1, hk, e', hchk, hci, hdiff => by
    have hhead : Digest.mk userId0 e.kind e.payload prev e.chainIndex = e.sha256 := by
      by_contra hne
      simp only [chainCheck, if_neg hne] at hchk
      exact Bool.false_ne_true hchk
    have htail : chainCheck es (some e.sha256) = true := by
      simpa only [chainCheck, if_pos hhead] using hchk
    have hk' : k < es.length := by simpa using hk
    simp only [List.get_eq_getElem, List.getElem_cons_succ] at hci hdiff
    have := chainCheck_set_tamper es (some e.sha256) k hk' e' htail hci hdiff
    simp only [List.set_cons_succ, chainCheck, if_pos hhead]
    exact this

/-!
## Claim C10 — empty-chain status
-/

/-- C10: for a partition containing zero vault entries, `getVaultStatus`
returns `totalEntries = 0`, `chainIntegrity = true` and the empty
`lastHash` sentinel (modelled as `none`), without error. -/
theorem c10_empty_chain_status (s : Store) (h : s.vault = []) :
    getVaultStatus s =
      { totalEntries := 0, encryptedEntries := 0, lastHash := none, chainIntegrity := true } := by
  simp [getVaultStatus, h, sortByChain, chainCheck]

/-- Witness for C10 at the initial empty partition. -/
theorem c10_empty_chain_status_witness :
    getVaultStatus initialStore =
      { totalEntries := 0, encryptedEntries := 0, lastHash := none, chainIntegrity := true } :=
  c10_empty_chain_status initialStore rfl

/-!
## Claim C9 — whole-partition erasure restarts the chain
-/

/-- C9: after `deleteAllData` the partition holds no vault entries and no
domain records, and the very next append (any of the three append paths)
produces the single entry with `chainIndex = 0` and the `null`
`prevHash` sentinel. -/
theorem c9_erasure_restarts_chain (s : Store) (op : AppendOp) :
    (deleteAllData s).vault = [] ∧ (deleteAllData s).states = [] ∧
    (deleteAllData s).events = [] ∧
    (applyOp (deleteAllData s) op).vault.map
        (fun e : PVaultEntry => (e.chainIndex, e.prevHash)) = [(0, none)] := by
  refine ⟨rfl, rfl, rfl, ?_⟩
  cases op <;>
    simp [applyOp, createEmotionalState, createNssiEvent, createVaultEntry, deleteAllData,
      lastVaultEntry]

/-!
## Claim C2 — the chain-link invariant
-/

/-- C2: after every sequence of append operations (all three append paths
included), every vault entry at position `i` carries `chainIndex = i`; the
entry at position 0 stores the `null` sentinel as `prevHash`; and every
entry at position `j + 1` stores exactly the `sha256` of the entry at
position `j` as its `prevHash`. -/
theorem c2_chain_link_invariant (ops : List AppendOp) (i : Nat)
    (hi : i < (runOps initialStore ops).vault.length) :
    (((runOps initialStore ops).vault.get ⟨i, hi⟩).chainIndex = i) ∧
    (i = 0 → ((runOps initialStore ops).vault.get ⟨i, hi⟩).prevHash = none) ∧
    (∀ (j : Nat) (hj : i = j + 1),
      ((runOps initialStore ops).vault.get ⟨i, hi⟩).prevHash =
        some (((runOps initialStore ops).vault.get ⟨j, by omega⟩).sha256)) := by
  have hl := linked_run ops
  refine ⟨?_, ?_, ?_⟩
  · have := linked_get_ci _ 0 none i hi hl
    simpa using this
  · intro h0
    subst h0
    exact linked_get_prev_zero _ 0 none hi hl
  · intro j hj
    subst hj
    exact linked_get_prev_succ _ 0 none j hi hl

/-- Witness for C2 on a concrete mixed two-append run. -/
theorem c2_chain_link_invariant_witness :
    ((runOps initialStore [AppendOp.newState 1 2 3,
        AppendOp.newVault "t" "r" (Digest.first "w" "w" (Payload.refPayload "w") 5)]).vault.get
      ⟨1, by decide⟩).prevHash =
      some (((runOps initialStore [AppendOp.newState 1 2 3,
        AppendOp.newVault "t" "r" (Digest.first "w" "w" (Payload.refPayload "w") 5)]).vault.get
      ⟨0, by decide⟩).sha256) :=
  (c2_chain_link_invariant [AppendOp.newState 1 2 3,
    AppendOp.newVault "t" "r" (Digest.first "w" "w" (Payload.refPayload "w") 5)] 1
    (by decide)).2.2 0 rfl

/-!
## Claim C3 — contiguous sequence indexes; validity of verification
-/

/-- C3 (amended): for every sequence of `N` appends to the empty
partition, the `chainIndex` values are exactly `0 .. N-1` in order, with
no gaps and no duplicates; and whenever the appends are the two
record-creation paths, `getVaultStatus` reports the chain valid.  (A
direct `createVaultEntry` append stores the caller-supplied digest, so
validity is not guaranteed for sequences including it — see the
counterexample.) -/
theorem c3_contiguous_indexes (ops : List AppendOp) :
    (runOps initialStore ops).vault.map (fun e : PVaultEntry => e.chainIndex) =
      (List.range ops.length).map (fun n : Nat => (n : Int)) ∧
    ((∀ op ∈ ops, op.isRecord = true) →
      (getVaultStatus (runOps initialStore ops)).chainIntegrity = true) := by
  have hlen : (runOps initialStore ops).vault.length = ops.length := by
    have := runOps_vault_length ops initialStore
    simpa [initialStore] using this
  constructor
  · apply List.ext_getElem
    · simp [hlen]
    · intro n h1 h2
      have hn : n < (runOps initialStore ops).vault.length := by simpa using h1
      have hci := linked_get_ci _ 0 none n hn (linked_run ops)
      simp only [List.get_eq_getElem] at hci
      simp only [List.getElem_map, List.getElem_range]
      rw [hci]
      omega
  · intro hall
    have hl := linked_run ops
    have hsort := sortByChain_eq_self _ (linked_chain' _ 0 none hl)
    have hchk := chainCheck_of_linked_hashOk _ 0 none hl (hashOk_run ops hall)
    simp [getVaultStatus, hsort, hchk]

/-- Witness for C3 on a concrete single record append. -/
theorem c3_contiguous_indexes_witness :
    (runOps initialStore [AppendOp.newState 62 (-20) 70]).vault.map
        (fun e : PVaultEntry => e.chainIndex) =
      (List.range 1).map (fun n : Nat => (n : Int)) ∧
    (getVaultStatus (runOps initialStore [AppendOp.newState 62 (-20) 70])).chainIntegrity =
      true :=
  ⟨(c3_contiguous_indexes [AppendOp.newState 62 (-20) 70]).1,
   (c3_contiguous_indexes [AppendOp.newState 62 (-20) 70]).2 (by decide)⟩

/-- C3 counterexample: one direct `createVaultEntry` append to the empty
partition (with a caller-supplied `dataHash` that is not the recomputed
chain digest) already makes `getVaultStatus` report the chain invalid,
refuting "`VerifyChain()` reports valid" for arbitrary append
sequences. -/
theorem c3_direct_append_counterexample :
    (getVaultStatus (runOps initialStore
      [AppendOp.newVault "state" "ref1"
        (Digest.first "x" "x" (Payload.refPayload "x") 7)])).chainIntegrity = false := by
  decide

/-!
## Claim C4 — the stored digest is the hash of the entry's own fields
-/

/-- C4 (amended): every vault entry produced by the two record-creation
append paths stores as `sha256` exactly the hash of the structure
`{userId, kind, payload, prevHash, chainIndex}` built from its own stored
fields, so recomputing the digest from the stored fields reproduces the
stored value.  (The hashed structure also contains the partition key
`userId`; entries from the direct vault-entry path instead store the
caller-supplied digest — see the counterexample.) -/
theorem c4_digest_recomputable (ops : List AppendOp)
    (hall : ∀ op ∈ ops, op.isRecord = true) :
    ∀ e ∈ (runOps initialStore ops).vault,
      e.sha256 = Digest.mk userId0 e.kind e.payload e.prevHash e.chainIndex :=
  hashOk_run ops hall

/-- Witness for C4 at the second entry of a concrete two-append run. -/
theorem c4_digest_recomputable_witness :
    ((runOps initialStore [AppendOp.newState 62 (-20) 70,
        AppendOp.newNssi 2 none]).vault.get ⟨1, by decide⟩).sha256 =
      Digest.mk userId0
        ((runOps initialStore [AppendOp.newState 62 (-20) 70,
            AppendOp.newNssi 2 none]).vault.get ⟨1, by decide⟩).kind
        ((runOps initialStore [AppendOp.newState 62 (-20) 70,
            AppendOp.newNssi 2 none]).vault.get ⟨1, by decide⟩).payload
        ((runOps initialStore [AppendOp.newState 62 (-20) 70,
            AppendOp.newNssi 2 none]).vault.get ⟨1, by decide⟩).prevHash
        ((runOps initialStore [AppendOp.newState 62 (-20) 70,
            AppendOp.newNssi 2 none]).vault.get ⟨1, by decide⟩).chainIndex :=
  c4_digest_recomputable [AppendOp.newState 62 (-20) 70, AppendOp.newNssi 2 none]
    (by decide) _ (by decide)

/-- C4 counterexample: the entry appended by the direct vault-entry
creation path stores the caller-supplied `dataHash`, which differs from
the hash of its own stored fields, refuting the claim for "every append
path". -/
theorem c4_direct_append_counterexample :
    ((runOps initialStore [AppendOp.newVault "state" "ref1"
        (Digest.first "x" "x" (Payload.refPayload "x") 7)]).vault.get
      ⟨0, by decide⟩).sha256 ≠
      Digest.mk userId0
        ((runOps initialStore [AppendOp.newVault "state" "ref1"
            (Digest.first "x" "x" (Payload.refPayload "x") 7)]).vault.get
          ⟨0, by decide⟩).kind
        ((runOps initialStore [AppendOp.newVault "state" "ref1"
            (Digest.first "x" "x" (Payload.refPayload "x") 7)]).vault.get
          ⟨0, by decide⟩).payload
        ((runOps initialStore [AppendOp.newVault "state" "ref1"
            (Digest.first "x" "x" (Payload.refPayload "x") 7)]).vault.get
          ⟨0, by decide⟩).prevHash
        ((runOps initialStore [AppendOp.newVault "state" "ref1"
            (Digest.first "x" "x" (Payload.refPayload "x") 7)]).vault.get
          ⟨0, by decide⟩).chainIndex := by
  decide

/-!
## Claim C1 — tamper detection by `getVaultStatus`
-/

/-- C1 (amended): on a chain built by the record-creation append paths,
an out-of-band mutation of exactly one of `kind`, `payload` or `sha256`
of the entry at position `k` (its `chainIndex` unchanged) makes
`getVaultStatus` report `chainIntegrity = false`.  The operation returns
only this boolean — it identifies no breakage index — and a mutation of
the stored `prevHash` alone is not detected (see the counterexample),
because the loop recomputes each digest from the running expected
previous hash and never compares the stored `prevHash` field. -/
theorem c1_single_field_mutation_detected (ops : List AppendOp)
    (hall : ∀ op ∈ ops, op.isRecord = true)
    (k : Nat) (hk : k < (runOps initialStore ops).vault.length) (e' : PVaultEntry)
    (hci : e'.chainIndex = ((runOps initialStore ops).vault.get ⟨k, hk⟩).chainIndex)
    (hdiff :
      (e'.kind ≠ ((runOps initialStore ops).vault.get ⟨k, hk⟩).kind ∧
        e'.payload = ((runOps initialStore ops).vault.get ⟨k, hk⟩).payload ∧
        e'.sha256 = ((runOps initialStore ops).vault.get ⟨k, hk⟩).sha256) ∨
      (e'.payload ≠ ((runOps initialStore ops).vault.get ⟨k, hk⟩).payload ∧
        e'.kind = ((runOps initialStore ops).vault.get ⟨k, hk⟩).kind ∧
        e'.sha256 = ((runOps initialStore ops).vault.get ⟨k, hk⟩).sha256) ∨
      (e'.sha256 ≠ ((runOps initialStore ops).vault.get ⟨k, hk⟩).sha256 ∧
        e'.kind = ((runOps initialStore ops).vault.get ⟨k, hk⟩).kind ∧
        e'.payload = ((runOps initialStore ops).vault.get ⟨k, hk⟩).payload)) :
    (getVaultStatus { runOps initialStore ops with
        vault := (runOps initialStore ops).vault.set k e' }).chainIntegrity = false := by
  have hl := linked_run ops
  have hchk := chainCheck_of_linked_hashOk _ 0 none hl (hashOk_run ops hall)
  have hch' := linked_chain' _ 0 none hl
  have hciG : e'.chainIndex = ((runOps initialStore ops).vault)[k].chainIndex := by
    simpa [List.get_eq_getElem] using hci
  have hset := chain'_set _ k hk e' hciG hch'
  have hsort := sortByChain_eq_self _ hset
  have hfalse := chainCheck_set_tamper _ none k hk e' hchk hci hdiff
  simp [getVaultStatus, hsort, hfalse]

/-- The two record appends used for the concrete C1 scenarios. -/
def c1BaseOps : List AppendOp := [AppendOp.newState 1 2 3, AppendOp.newNssi 4 none]

/-- Out-of-band mutation of the `kind` field of the entry at position 1. -/
def c1KindMutated : PVaultEntry :=
  let e := (runOps initialStore c1BaseOps).vault.get ⟨1, by decide⟩
  { e with kind := "tampered" }

/-- Witness for C1 (amended): mutating the `kind` of entry 1 is reported. -/
theorem c1_single_field_mutation_detected_witness :
    (getVaultStatus { runOps initialStore c1BaseOps with
        vault := (runOps initialStore c1BaseOps).vault.set 1 c1KindMutated }).chainIntegrity =
      false :=
  c1_single_field_mutation_detected c1BaseOps (by decide) 1 (by decide) c1KindMutated
    (by decide) (by decide)

/-- The store of `c1BaseOps` with only the stored `prevHash` of the entry
at position 1 mutated out of band. -/
def c1PrevMutatedStore : Store :=
  let s := runOps initialStore c1BaseOps
  let e := s.vault.get ⟨1, by decide⟩
  let tampered : PVaultEntry :=
    { e with prevHash := some (Digest.first "forged" "forged" (Payload.refPayload "forged") 999) }
  { s with vault := s.vault.set 1 tampered }

/-- C1 counterexample: a mutation of the stored `prevHash` field of the
entry at index 1 — all other stored fields byte-identical — after which
`getVaultStatus` still reports `chainIntegrity = true`, refuting
"mutating any stored field of the entry at index `k` causes the
verification to report the chain invalid at `k`". -/
theorem c1_prevhash_mutation_undetected :
    c1PrevMutatedStore.vault.map (fun e : PVaultEntry => e.kind) =
      (runOps initialStore c1BaseOps).vault.map (fun e : PVaultEntry => e.kind) ∧
    c1PrevMutatedStore.vault.map (fun e : PVaultEntry => e.payload) =
      (runOps initialStore c1BaseOps).vault.map (fun e : PVaultEntry => e.payload) ∧
    c1PrevMutatedStore.vault.map (fun e : PVaultEntry => e.sha256) =
      (runOps initialStore c1BaseOps).vault.map (fun e : PVaultEntry => e.sha256) ∧
    c1PrevMutatedStore.vault.map (fun e : PVaultEntry => e.chainIndex) =
      (runOps initialStore c1BaseOps).vault.map (fun e : PVaultEntry => e.chainIndex) ∧
    c1PrevMutatedStore.vault.map (fun e : PVaultEntry => e.prevHash) ≠
      (runOps initialStore c1BaseOps).vault.map (fun e : PVaultEntry => e.prevHash) ∧
    (getVaultStatus c1PrevMutatedStore).chainIntegrity = true := by
  refine ⟨by decide, by decide, by decide, by decide, by decide, by decide⟩

/-!
## Claim C6 — (absence of) append input validation
-/

/-- C6 (amended): the ledger append operation `createVaultEntry` performs
no validation of `kind` (`entryType`) or `referenceId`: for every input —
the empty strings included — it never rejects, and it writes exactly one
new entry carrying the given `entryType` and `referenceId` payload and
the caller-supplied digest. -/
theorem c6_no_input_validation (s : Store) (entryType referenceId : String) (d : Digest) :
    (createVaultEntry entryType referenceId d s).vault.length = s.vault.length + 1 ∧
    (createVaultEntry entryType referenceId d s).vault.getLast? =
      some { id := genId s.nextId, kind := entryType,
             payload := Payload.refPayload referenceId, sha256 := d,
             prevHash := (lastVaultEntry s.vault).map (fun e : PVaultEntry => e.sha256),
             chainIndex :=
               (match lastVaultEntry s.vault with | none => (-1 : Int) | some m => m.chainIndex) + 1 } := by
  constructor
  · simp [createVaultEntry]
  · simp only [createVaultEntry, List.getLast?_concat]

/-- C6 counterexample: calling the append with empty `kind` and empty
`referenceId` on the empty partition is not rejected — it writes an entry
whose `kind` is the empty string, refuting "rejected with an InvalidInput
error before any write, leaving the store unchanged". -/
theorem c6_empty_input_written :
    (createVaultEntry "" "" (Digest.first "x" "x" (Payload.refPayload "x") 0)
        initialStore).vault ≠ initialStore.vault ∧
    (createVaultEntry "" "" (Digest.first "x" "x" (Payload.refPayload "x") 0)
        initialStore).vault.map (fun e : PVaultEntry => e.kind) = [""] := by
  exact ⟨by decide, by decide⟩

/-!
## Claim C5 — determinism and (non-)canonicalization of the hasher
-/

/-- C5 (amended): `generateHash` is deterministic over the serialized
string it is given — equal serializations always produce equal digests —
but it performs no canonical re-encoding: the caller's serialization is
hashed verbatim, so two serializations that differ (for instance because
the caller inserted the same fields in a different order) produce
different hash inputs and, for a collision-free hash, different
digests. -/
theorem c5_hash_verbatim (r1 r2 : List (String × Int)) :
    (stringifyObj r1 = stringifyObj r2 →
      generateHash (stringifyObj r1) = generateHash (stringifyObj r2)) ∧
    (stringifyObj r1 ≠ stringifyObj r2 →
      generateHash (stringifyObj r1) ≠ generateHash (stringifyObj r2)) := by
  constructor
  · intro h; rw [h]
  · intro h hcontra
    exact h (Sha256.hashOf.inj hcontra)

/-- Witness for C5 on the two orderings of `{a: 1, b: 2}`. -/
theorem c5_hash_verbatim_witness :
    generateHash (stringifyObj [("a", 1), ("b", 2)]) ≠
      generateHash (stringifyObj [("b", 2), ("a", 1)]) :=
  (c5_hash_verbatim [("a", 1), ("b", 2)] [("b", 2), ("a", 1)]).2 (by decide)

/-- C5 counterexample: two representations of the same logical object
(the same field set, permuted insertion order) are hashed to different
digests, because the canonical encoding step the claim attributes to the
hasher does not exist — `generateHash` hashes the caller's serialization
as-is. -/
theorem c5_field_order_changes_digest :
    ([(("a" : String), (1 : Int)), ("b", 2)].Perm [("b", 2), ("a", 1)]) ∧
    generateHash (stringifyObj [("a", 1), ("b", 2)]) ≠
      generateHash (stringifyObj [("b", 2), ("a", 1)]) := by
  constructor
  · decide
  · intro h
    exact absurd (Sha256.hashOf.inj h) (by decide)

/-!
## Claim C8 — the obfuscated export is a reversible encoding of the plain one
-/

theorem dec6_enc6 : ∀ n : Fin 64, dec6 (enc6 n.val) = n.val := by decide

theorem enc6_ne_pad : ∀ n : Fin 64, enc6 n.val ≠ '=' := by decide

theorem dec6_enc6_of_lt (n : Nat) (h : n < 64) : dec6 (enc6 n) = n := dec6_enc6 ⟨n, h⟩

theorem enc6_ne_pad_of_lt (n : Nat) (h : n < 64) : enc6 n ≠ '=' := enc6_ne_pad ⟨n, h⟩

/-- Decoding inverts encoding on every byte sequence. -/
theorem b64_roundtrip :
    ∀ (bs : List Nat), (∀ b ∈ bs, b < 256) → b64Decode (b64Encode bs) = bs
  | [], _ => rfl
  | [a], h => by
    have ha : a < 256 := h a (by simp)
    have h1 : a / 4 < 64 := by omega
    have h2 : a % 4 * 16 < 64 := by omega
    have e1 : a / 4 * 4 + a % 4 * 16 / 16 = a := by omega
    simp only [b64Encode, b64Decode]
    simp only [if_true]
    rw [dec6_enc6_of_lt _ h1, dec6_enc6_of_lt _ h2, e1]
  | [a, b], h => by
    have ha : a < 256 := h a (by simp)
    have hb : b < 256 := h b (by simp)
    have h1 : a / 4 < 64 := by omega
    have h2 : a % 4 * 16 + b / 16 < 64 := by omega
    have h3 : b % 16 * 4 < 64 := by omega
    have e1 : a / 4 * 4 + (a % 4 * 16 + b / 16) / 16 = a := by omega
    have e2 : (a % 4 * 16 + b / 16) % 16 * 16 + b % 16 * 4 / 4 = b := by omega
    simp only [b64Encode, b64Decode]
    rw [if_neg (enc6_ne_pad_of_lt _ h3)]
    simp only [if_true]
    rw [dec6_enc6_of_lt _ h1, dec6_enc6_of_lt _ h2, dec6_enc6_of_lt _ h3, e1, e2]
  | [a, b, c], h => by
    have ha : a < 256 := h a (by simp)
    have hb : b < 256 := h b (by simp)
    have hc : c < 256 := h c (by simp)
    have h1 : a / 4 < 64 := by omega
    have h2 : a % 4 * 16 + b / 16 < 64 := by omega
    have h3 : b % 16 * 4 + c / 64 < 64 := by omega
    have h4 : c % 64 < 64 := by omega
    have e1 : a / 4 * 4 + (a % 4 * 16 + b / 16) / 16 = a := by omega
    have e2 : (a % 4 * 16 + b / 16) % 16 * 16 + (b % 16 * 4 + c / 64) / 4 = b := by omega
    have e3 : (b % 16 * 4 + c / 64) % 4 * 64 + c % 64 = c := by omega
    simp only [b64Encode, b64Decode]
    rw [if_neg (enc6_ne_pad_of_lt _ h3), if_neg (enc6_ne_pad_of_lt _ h4)]
    rw [dec6_enc6_of_lt _ h1, dec6_enc6_of_lt _ h2, dec6_enc6_of_lt _ h3,
      dec6_enc6_of_lt _ h4, e1, e2, e3]
  | a :: b :: c :: d :: rest, h => by
    have ha : a < 256 := h a (by simp)
    have hb : b < 256 := h b (by simp)
    have hc : c < 256 := h c (by simp)
    have h1 : a / 4 < 64 := by omega
    have h2 : a % 4 * 16 + b / 16 < 64 := by omega
    have h3 : b % 16 * 4 + c / 64 < 64 := by omega
    have h4 : c % 64 < 64 := by omega
    have e1 : a / 4 * 4 + (a % 4 * 16 + b / 16) / 16 = a := by omega
    have e2 : (a % 4 * 16 + b / 16) % 16 * 16 + (b % 16 * 4 + c / 64) / 4 = b := by omega
    have e3 : (b % 16 * 4 + c / 64) % 4 * 64 + c % 64 = c := by omega
    have htail := b64_roundtrip (d :: rest) (fun x hx => h x (by simp at hx ⊢; tauto))
    simp only [b64Encode, b64Decode]
    rw [if_neg (enc6_ne_pad_of_lt _ h3), if_neg (enc6_ne_pad_of_lt _ h4)]
    rw [dec6_enc6_of_lt _ h1, dec6_enc6_of_lt _ h2, dec6_enc6_of_lt _ h3,
      dec6_enc6_of_lt _ h4, e1, e2, e3, htail]

/-- C8: for every store and every byte serialization of the export
document (the UTF-8 bytes of `JSON.stringify(data)`), decoding the
obfuscated export (`base64`) recovers exactly the plain serialization;
and the export document carries the stored ledger entries unaltered — the
exported digest, previous-hash link and kind of each entry, in ascending
`chainIndex` order, are exactly the stored ones (export is read-only with
respect to the ledger: it is built from pure reads). -/
theorem c8_export_roundtrip (s : Store) (ser : ExportDoc → List Nat)
    (hser : ∀ b ∈ ser (exportDocument s), b < 256) :
    b64Decode (b64Encode (ser (exportDocument s))) = ser (exportDocument s) ∧
    (exportDocument s).vaultEntries.map
        (fun en => (en.dataHash, en.previousHash, en.entryType)) =
      (sortByChain s.vault).map
        (fun e : PVaultEntry => (e.sha256, e.prevHash, e.kind)) := by
  constructor
  · exact b64_roundtrip _ hser
  · simp only [exportDocument, getVaultEntries, List.map_map]
    apply List.map_congr_left
    intro e _
    rfl

/-- Witness for C8 on a concrete store and serializer. -/
theorem c8_export_roundtrip_witness :
    b64Decode (b64Encode ((fun _ : ExportDoc => [104, 105])
        (exportDocument (runOps initialStore [AppendOp.newState 1 2 3])))) =
      (fun _ : ExportDoc => [104, 105])
        (exportDocument (runOps initialStore [AppendOp.newState 1 2 3])) ∧
    (exportDocument (runOps initialStore [AppendOp.newState 1 2 3])).vaultEntries.map
        (fun en => (en.dataHash, en.previousHash, en.entryType)) =
      (sortByChain (runOps initialStore [AppendOp.newState 1 2 3]).vault).map
        (fun e : PVaultEntry => (e.sha256, e.prevHash, e.kind)) :=
  c8_export_roundtrip (runOps initialStore [AppendOp.newState 1 2 3])
    (fun _ : ExportDoc => [104, 105]) (by decide)

/-!
## Claim C7 — enrichment tolerates deleted records
-/

theorem enrichEntry_entryType (s : Store) (e : PVaultEntry) :
    (enrichEntry s e).entryType = e.kind := rfl

theorem enrichEntry_referenceId (s : Store) (e : PVaultEntry) :
    (enrichEntry s e).referenceId = (payloadIdField e.payload).getD "" := rfl

theorem enrichEntry_contentSummary (s : Store) (e : PVaultEntry) :
    (enrichEntry s e).contentSummary =
      match payloadIdField e.payload with
      | none => none
      | some i =>
        if i = "" then none
        else if e.kind = "state" then
          (s.states.find? (fun st => st.id = i)).map
            (fun st => ContentSummary.forState st.intensity st.valence st.arousal)
        else if e.kind = "nssi" then
          (s.events.find? (fun ev => ev.id = i)).map
            (fun ev => ContentSummary.forNssi ev.severity ev.triggerType)
        else none := rfl

/-- C7: over any store whose record ids are non-empty (database-generated
ids always are), the enrichment of `getVaultEntries` (1) returns
`contentSummary = none` — and no error — for every entry whose
`referenceId` does not resolve to a record of its kind (in particular
when the record was deleted by a retention policy), and (2) attaches the
referenced record's display-safe fields whenever the `referenceId` does
resolve. -/
theorem c7_enrichment_tolerates_missing (s : Store)
    (hs : ∀ st ∈ s.states, st.id ≠ "") (he : ∀ ev ∈ s.events, ev.id ≠ "") :
    ∀ en ∈ getVaultEntries s,
      (¬ ((en.entryType = "state" ∧ ∃ st ∈ s.states, st.id = en.referenceId) ∨
          (en.entryType = "nssi" ∧ ∃ ev ∈ s.events, ev.id = en.referenceId)) →
        en.contentSummary = none) ∧
      ((en.entryType = "state" ∧ ∃ st ∈ s.states, st.id = en.referenceId) →
        ∃ st ∈ s.states, st.id = en.referenceId ∧
          en.contentSummary =
            some (ContentSummary.forState st.intensity st.valence st.arousal)) ∧
      ((en.entryType = "nssi" ∧ ∃ ev ∈ s.events, ev.id = en.referenceId) →
        ∃ ev ∈ s.events, ev.id = en.referenceId ∧
          en.contentSummary =
            some (ContentSummary.forNssi ev.severity ev.triggerType)) := by
  intro en hen
  rw [getVaultEntries] at hen
  obtain ⟨e, he_mem, rfl⟩ := List.mem_map.mp hen
  simp only [enrichEntry_entryType, enrichEntry_referenceId, enrichEntry_contentSummary]
  rcases hpid : payloadIdField e.payload with _ | i
  · simp only [Option.getD_none]
    refine ⟨fun _ => by trivial, ?_, ?_⟩
    · rintro ⟨-, st, hmem, hid⟩
      exact absurd hid (hs st hmem)
    · rintro ⟨-, ev, hmem, hid⟩
      exact absurd hid (he ev hmem)
  · simp only [Option.getD_some]
    by_cases hi : i = ""
    · subst hi
      simp only [if_pos rfl]
      refine ⟨fun _ => by trivial, ?_, ?_⟩
      · rintro ⟨-, st, hmem, hid⟩
        exact absurd hid (hs st hmem)
      · rintro ⟨-, ev, hmem, hid⟩
        exact absurd hid (he ev hmem)
    · rw [if_neg hi]
      refine ⟨?_, ?_, ?_⟩
      · intro hnres
        by_cases hks : e.kind = "state"
        · rw [if_pos hks]
          have hnone : s.states.find? (fun st => st.id = i) = none := by
            rw [List.find?_eq_none]
            intro st hmem hdec
            exact hnres (Or.inl ⟨hks, st, hmem, of_decide_eq_true hdec⟩)
          rw [hnone]
          rfl
        · rw [if_neg hks]
          by_cases hkn : e.kind = "nssi"
          · rw [if_pos hkn]
            have hnone : s.events.find? (fun ev => ev.id = i) = none := by
              rw [List.find?_eq_none]
              intro ev hmem hdec
              exact hnres (Or.inr ⟨hkn, ev, hmem, of_decide_eq_true hdec⟩)
            rw [hnone]
            rfl
          · rw [if_neg hkn]
      · rintro ⟨hks, st0, hmem0, hid0⟩
        rw [if_pos hks]
        rcases hfind : s.states.find? (fun st => st.id = i) with _ | stf
        · exact absurd (decide_eq_true hid0)
            (List.find?_eq_none.mp hfind st0 hmem0)
        · have hp := List.find?_some hfind
          refine ⟨stf, List.mem_of_find?_eq_some hfind, of_decide_eq_true hp, ?_⟩
          rw [hfind]
          rfl
      · rintro ⟨hkn, ev0, hmem0, hid0⟩
        have hks : ¬ e.kind = "state" := by
          rw [hkn]
          decide
        rw [if_neg hks, if_pos hkn]
        rcases hfind : s.events.find? (fun ev => ev.id = i) with _ | evf
        · exact absurd (decide_eq_true hid0)
            (List.find?_eq_none.mp hfind ev0 hmem0)
        · have hp := List.find?_some hfind
          refine ⟨evf, List.mem_of_find?_eq_some hfind, of_decide_eq_true hp, ?_⟩
          rw [hfind]
          rfl

/-- Witness for C7: a record append followed by retention deletion of the
state record — the enriched entry reports no content summary and no
error. -/
theorem c7_enrichment_tolerates_missing_witness :
    ((getVaultEntries (pruneRecords (fun _ => false) (fun _ => true)
        (runOps initialStore [AppendOp.newState 62 (-20) 70]))).get
      ⟨0, by decide⟩).contentSummary = none :=
  (c7_enrichment_tolerates_missing
    (pruneRecords (fun _ => false) (fun _ => true)
      (runOps initialStore [AppendOp.newState 62 (-20) 70]))
    (by decide) (by decide) _ (by decide)).1 (by decide)

end EmotionalOS
